import Mathlib

/- Shallow embedding of the Factorio Lua-to-JSON exporter (src/lua_to_json.py)
   and proofs about it.  The embedding models the converter in the environment
   where the optional lupa interpreter is absent (`LUPA_AVAILABLE = False`,
   so `LuaEvaluator.lua = None` and `context = {}`): evaluation goes through
   `LuaEvaluator._evaluate_fallback`.  Machine strings are modelled over their
   ASCII character lists; Python `int()` / `float()` literal acceptance is
   modelled by `pyInt?` / `pyFloatOk` below. -/

namespace LuaJson

/- Named control characters, used instead of escaped character literals. -/

def tabC : Char := Char.ofNat 9

def nlC : Char := Char.ofNat 10

def vtC : Char := Char.ofNat 11

def ffC : Char := Char.ofNat 12

def crC : Char := Char.ofNat 13

def dqC : Char := Char.ofNat 34

def sqC : Char := Char.ofNat 39

def bslashC : Char := Char.ofNat 92

/-- ASCII whitespace: the characters stripped by Python `str.strip()` and
matched by the regex class `\s` (restricted to ASCII input). -/
def pyWsB (c : Char) : Bool :=
  c = ' ' || c = tabC || c = nlC || c = vtC || c = ffC || c = crC

/-- The literal whitespace set `' \t\n\r'` tested by the hand-written parser
loops in `parse_lua_table`. -/
def luaWsB (c : Char) : Bool :=
  c = ' ' || c = tabC || c = nlC || c = crC

/-- The set `', \t\n\r'` used by the comma-skipping tails of the entry loops. -/
def commaWsB (c : Char) : Bool :=
  c = ',' || luaWsB c

/-- Regex `\w` over ASCII: letters, digits, underscore. -/
def wordB (c : Char) : Bool := c.isAlpha || c.isDigit || c = '_'

/-- Regex class `[a-zA-Z_]` (start of a table key). -/
def identStartB (c : Char) : Bool := c.isAlpha || c = '_'

/-- Regex class `[a-zA-Z0-9_-]` (continuation of a table key). -/
def identContB (c : Char) : Bool := c.isAlpha || c.isDigit || c = '_' || c = '-'

/-- Python `str.strip()` on a character list. -/
def stripL (cs : List Char) : List Char :=
  ((cs.dropWhile pyWsB).reverse.dropWhile pyWsB).reverse

/-- Python `str.strip()`. -/
def pyStrip (s : String) : String := String.mk (stripL s.toList)

/-- Test whether `pat` is a prefix of the second list. -/
def startsWithL : List Char → List Char → Bool
  | [], _ => true
  | _ :: _, [] => false
  | p :: ps, c :: cs => p = c && startsWithL ps cs

/-- Python `pat in s` (substring containment). -/
def hasSubL (pat : List Char) : List Char → Bool
  | [] => startsWithL pat []
  | c :: cs => startsWithL pat (c :: cs) || hasSubL pat cs

/-- The guard `'.' in value_str or 'e' in value_str.lower()` of
`parse_lua_value`'s number branch. -/
def hasDotE (cs : List Char) : Bool :=
  cs.any (fun c => c = '.' || c = 'e' || c = 'E')

/- Python numeric literal grammar (`int()` / `float()` on pre-stripped ASCII
   text): an optional sign, then digit groups where single underscores may
   appear between digits; `float()` additionally accepts a fractional part,
   an exponent, and the case-insensitive words inf / infinity / nan. -/

/-- Continuation of a digit group after at least one digit was read. -/
def digitTail : List Char → Bool
  | [] => true
  | c :: cs =>
    if c = '_' then
      match cs with
      | [] => false
      | d :: ds => d.isDigit && digitTail ds
    else c.isDigit && digitTail cs

/-- A nonempty digit group with single underscores allowed between digits. -/
def digitRun : List Char → Bool
  | [] => false
  | c :: cs => c.isDigit && digitTail cs

/-- Decimal value of a digit group, ignoring underscores. -/
def pyIntDigits (cs : List Char) : Nat :=
  cs.foldl (fun n c => if c = '_' then n else n * 10 + (c.toNat - 48)) 0

/-- Python `int(value_str)` on stripped ASCII text: `some n` when accepted. -/
def pyIntP : String → Option Int :=
  fun s =>
    match s.toList with
    | '+' :: cs => if digitRun cs then some (Int.ofNat (pyIntDigits cs)) else none
    | '-' :: cs => if digitRun cs then some (-(Int.ofNat (pyIntDigits cs))) else none
    | cs => if digitRun cs then some (Int.ofNat (pyIntDigits cs)) else none

/-- Mantissa of a Python float literal: `d`, `d.`, `d.d` or `.d` forms. -/
def mantOk (cs : List Char) : Bool :=
  let ip := cs.takeWhile (fun c => c ≠ '.')
  let rest := cs.drop ip.length
  match rest with
  | [] => digitRun cs
  | _ :: frac =>
    if ip.isEmpty then digitRun frac
    else if frac.isEmpty then digitRun ip
    else digitRun ip && digitRun frac

/-- Exponent digits of a Python float literal (after `e`/`E`). -/
def expOk : List Char → Bool
  | [] => false
  | '+' :: cs => digitRun cs
  | '-' :: cs => digitRun cs
  | cs => digitRun cs

/-- Case-insensitive comparison against a fixed word. -/
def lowerEq (cs : List Char) (t : String) : Bool :=
  cs.map Char.toLower == t.toList

/-- Body of a Python float literal after the optional sign. -/
def floatBody (cs : List Char) : Bool :=
  if lowerEq cs "inf" || lowerEq cs "infinity" || lowerEq cs "nan" then true
  else
    let m := cs.takeWhile (fun c => c ≠ 'e' && c ≠ 'E')
    let rest := cs.drop m.length
    match rest with
    | [] => mantOk cs
    | _ :: ex => mantOk m && expOk ex

/-- Python `float(value_str)` acceptance on stripped ASCII text. -/
def pyFloatOk (s : String) : Bool :=
  match s.toList with
  | '+' :: cs => floatBody cs
  | '-' :: cs => floatBody cs
  | cs => floatBody cs

/-- The JSON-compatible value tree produced by the converter.  Python has a
single string type, so both genuine strings and retained (opaque) source text
use `str`; float results keep their source literal text (no claim computes
with float values). -/
inductive Value where
  | nil : Value
  | boolv : Bool → Value
  | intv : Int → Value
  | floatv : String → Value
  | str : String → Value
  | arr : List Value → Value
  | obj : List (String × Value) → Value

/-- The evaluator state in the interpreter-less environment: `lua = None`
and only the per-file `context` dict (empty unless populated). -/
structure LuaEvaluator where
  context : List (String × String)

/-- The fixed known-constant table of `LuaEvaluator._resolve_variable`. -/
def known_values : List (String × String) := [("data_util.mod_prefix", "se-")]

/-- Lookup in a string-keyed association list (Python dict membership test
plus indexing). -/
def lookupStr : List (String × String) → String → Option String
  | [], _ => none
  | (k, v) :: rest, key => if k = key then some v else lookupStr rest key

/-- Model of `LuaEvaluator._resolve_variable`: known constants first, then context. -/
def resolve_variable (ev : LuaEvaluator) (path : String) : Option String :=
  match lookupStr known_values path with
  | some v => some v
  | none => lookupStr ev.context path

/-- Greedy `(?:\.\w+)*` groups: consumed characters and the rest. -/
def dottedGroups : Nat → List Char → List Char × List Char
  | 0, cs => ([], cs)
  | f + 1, cs =>
    match cs with
    | '.' :: cs2 =>
      let w := cs2.takeWhile wordB
      if w.isEmpty then ([], cs)
      else
        let r := dottedGroups f (cs2.drop w.length)
        ('.' :: (w ++ r.1), r.2)
    | _ => ([], cs)

/-- Anchored match of the fallback concatenation pattern
`(\w+(?:\.\w+)+)\s*\.\.\s*["\x27]([^"\x27]*)["\x27]` (re.match: prefix match,
trailing text ignored).  Returns the dotted path and the quoted literal. -/
def concatMatch (cs : List Char) : Option (String × String) :=
  let w := cs.takeWhile wordB
  if w.isEmpty then none
  else
    let rest0 := cs.drop w.length
    let g := dottedGroups (rest0.length + 1) rest0
    if g.1.isEmpty then none
    else
      let rest2 := g.2.dropWhile pyWsB
      match rest2 with
      | '.' :: '.' :: rest3 =>
        let rest4 := rest3.dropWhile pyWsB
        match rest4 with
        | q :: rest5 =>
          if q = dqC || q = sqC then
            let lit := rest5.takeWhile (fun c => c ≠ dqC && c ≠ sqC)
            let rest6 := rest5.drop lit.length
            match rest6 with
            | q2 :: _ =>
              if q2 = dqC || q2 = sqC then some (String.mk (w ++ g.1), String.mk lit)
              else none
            | [] => none
          else none
        | [] => none
      | _ => none

/-- Tail of the full match `^\w+(?:\.\w+)*$` after the leading word run. -/
def bareTail : Nat → List Char → Bool
  | 0, _ => false
  | _ + 1, [] => true
  | f + 1, '.' :: cs =>
    let w := cs.takeWhile wordB
    if w.isEmpty then false else bareTail f (cs.drop w.length)
  | _ + 1, _ => false

/-- Full match of the bare-variable pattern `^\w+(?:\.\w+)*$`. -/
def barePathB (cs : List Char) : Bool :=
  let w := cs.takeWhile wordB
  !w.isEmpty && bareTail (cs.length + 1) (cs.drop w.length)

/-- Model of `LuaEvaluator._evaluate_fallback`; `none` models Python `None`.
The concatenation branch falls through when the path does not resolve. -/
def evaluate_fallback (ev : LuaEvaluator) (expr : String) : Option String :=
  let afterConcat : Option String :=
    if barePathB expr.toList then resolve_variable ev expr else some expr
  match concatMatch expr.toList with
  | some pl =>
    match resolve_variable ev pl.1 with
    | some v => some (v ++ pl.2)
    | none => afterConcat
  | none => afterConcat

/-- Model of `LuaEvaluator.evaluate` with `self.lua = None`: strip, then fallback. -/
def evaluate (ev : LuaEvaluator) (expr : String) : Option String :=
  evaluate_fallback ev (pyStrip expr)

/-- Whether `cs` starts and ends with the quote `q` (Python
`value_str.startswith(q) and value_str.endswith(q)`). -/
def quotedByB (cs : List Char) (q : Char) : Bool :=
  cs.head? == some q && cs.getLast? == some q

/-- The tail of `parse_lua_value` after the boolean / nil / number attempts:
quoted-string check, then the evaluator attempt, then the original text. -/
def restAfterNumber (v : String) (ev : Option LuaEvaluator) : Value :=
  let cs := v.toList
  if quotedByB cs dqC || quotedByB cs sqC then .str (String.mk ((cs.drop 1).dropLast))
  else
    match ev with
    | some e =>
      if hasSubL ['.', '.'] cs || cs.contains '.' then
        match evaluate e v with
        | none => Value.nil
        | some r => if r = v then .str v else .str r
      else .str v
    | none => .str v

/-- Model of `parse_lua_value`: classify one scalar token. -/
def parse_lua_value (s : String) (ev : Option LuaEvaluator) : Value :=
  let v := pyStrip s
  if v = "true" then .boolv true
  else if v = "false" then .boolv false
  else if v = "nil" then .nil
  else if hasDotE v.toList then
    if pyFloatOk v then .floatv v else restAfterNumber v ev
  else
    match pyIntP v with
    | some n => .intv n
    | none => restAfterNumber v ev

/- Call-Site Extractor (`extract_tables_from_lua`).  The function first finds
   an occurrence of the pattern `data:extend\s*\(\s*\{`, then scans forward
   counting braces (no quote tracking) to find the end of the argument-list
   block, slices `content[start+1 : pos-1]`, and splits that text into
   individual top-level tables with a quote-aware state machine. -/

/-- Python slice `cs[a:b]` for `a ≤ b` (empty when `b ≤ a`). -/
def sliceL (cs : List Char) (a b : Nat) : List Char := (cs.drop a).take (b - a)

/-- Index `i` at the first position `≥ p` whose character fails `pred`
(the `while pos < len and pred: pos += 1` idiom), fueled. -/
def skipWhileIdxF (pred : Char → Bool) : Nat → List Char → Nat → Nat
  | 0, _, p => p
  | f + 1, cs, p =>
    if p < cs.length && pred (cs.getD p ' ') then skipWhileIdxF pred f cs (p + 1) else p

/-- The skip loop `skipWhileIdxF` with enough fuel to finish. -/
def skipWhileIdx (pred : Char → Bool) (cs : List Char) (p : Nat) : Nat :=
  skipWhileIdxF pred (cs.length + 1) cs p

/-- Two-character lookahead `content[pos:pos+2] == "xy"`. -/
def lookAt2 (cs : List Char) (p : Nat) (x y : Char) : Bool :=
  cs.get? p == some x && cs.get? (p + 1) == some y

/-- Attempt to match the regex `data:extend\s*\(\s*\{` at index `i`; returns
the index just past the opening `\x7b` (the regex match end). -/
def matchExtendAt (cs : List Char) (i : Nat) : Option Nat :=
  if startsWithL ("data:extend".toList) (cs.drop i) then
    let j := skipWhileIdx pyWsB cs (i + 11)
    if cs.get? j == some '(' then
      let k := skipWhileIdx pyWsB cs (j + 1)
      if cs.get? k == some '\x7b' then some (k + 1) else none
    else none
  else none

/-- Leftmost match of the call-site pattern at index `≥ i` (re.search on
`content[search_pos:]`). -/
def findPatternF : Nat → List Char → Nat → Option Nat
  | 0, _, _ => none
  | f + 1, cs, i =>
    if i > cs.length then none
    else
      match matchExtendAt cs i with
      | some e => some e
      | none => findPatternF f cs (i + 1)

/-- The search `findPatternF` with enough fuel. -/
def findPattern (cs : List Char) (i : Nat) : Option Nat :=
  findPatternF (cs.length + 1) cs i

/-- The forward scan that finds the end of a call site's argument-list block
(lines 241-246): counts every `\x7b` / `\x7d` — it keeps no quote state —
and stops one past the brace that returns the count to zero, or at
end-of-input.  Returns the final `pos`. -/
def findClosingF : Nat → List Char → Nat → Nat → Nat
  | 0, _, pos, _ => pos
  | f + 1, cs, pos, count =>
    if pos < cs.length && count > 0 then
      let c := cs.getD pos ' '
      let count' := if c = '\x7b' then count + 1 else if c = '\x7d' then count - 1 else count
      findClosingF f cs (pos + 1) count'
    else pos

/-- The scan `findClosingF` with enough fuel, starting just after the opening brace
with depth 1. -/
def extractBlockEnd (cs : List Char) (start : Nat) : Nat :=
  findClosingF (cs.length + 1) cs (start + 1) 1

/-- The argument-list text of one call site:
`content[start+1 : pos-1]` where `start` is the opening brace index. -/
def extractBlockContent (cs : List Char) (start : Nat) : List Char :=
  sliceL cs (start + 1) (extractBlockEnd cs start - 1)

/-- State of the quote/brace machine of the Table Splitter (and, as the pure
state part, of the nested-table scans inside `parse_lua_table`). -/
structure QState where
  depth : Int
  inStr : Bool
  sc : Option Char
  esc : Bool
deriving DecidableEq

/-- Initial machine state. -/
def qInit : QState := ⟨0, false, none, false⟩

/-- One transition of the splitter's quote/brace machine (state part only). -/
def qstep (q : QState) (c : Char) : QState :=
  if q.esc then { q with esc := false }
  else if c = bslashC && q.inStr then { q with esc := true }
  else if (c = dqC || c = sqC) && !q.inStr then { q with inStr := true, sc := some c }
  else if q.inStr && some c == q.sc then { q with inStr := false, sc := none }
  else if !q.inStr then
    if c = '\x7b' then { q with depth := q.depth + 1 }
    else if c = '\x7d' then { q with depth := q.depth - 1 }
    else q
  else q

/-- Machine state after a character list, from a given state. -/
def scanQFrom (q : QState) (cs : List Char) : QState := cs.foldl qstep q

/-- Machine state after a character list, from the initial state. -/
def scanQ (cs : List Char) : QState := scanQFrom qInit cs

/-- Full state of the Table Splitter loop (lines 252-295): emitted tables,
the current accumulator, and the brace/quote state. -/
structure SplitState where
  tables : List (List Char)
  cur : List Char
  depth : Int
  inStr : Bool
  sc : Option Char
  esc : Bool

/-- One iteration of the Table Splitter loop, mirroring the Python branch
structure character by character. -/

def splitStep (st : SplitState) (c : Char) : SplitState :=
  if st.esc then { st with cur := st.cur ++ [c], esc := false }
  else if c = bslashC && st.inStr then { st with esc := true, cur := st.cur ++ [c] }
  else if (c = dqC || c = sqC) && !st.inStr then
    { st with inStr := true, sc := some c, cur := st.cur ++ [c] }
  else if st.inStr && some c == st.sc then
    { st with inStr := false, sc := none, cur := st.cur ++ [c] }
  else if !st.inStr then
    if c = '\x7b' then
      if st.depth = 0 then { st with cur := [c], depth := st.depth + 1 }
      else { st with cur := st.cur ++ [c], depth := st.depth + 1 }
    else if c = '\x7d' then
      let d := st.depth - 1
      let cur2 := st.cur ++ [c]
      if d = 0 then { st with tables := st.tables ++ [cur2], cur := [], depth := d }
      else { st with cur := cur2, depth := d }
    else if st.depth > 0 then { st with cur := st.cur ++ [c] }
    else st
  else { st with cur := st.cur ++ [c] }

/-- The Table Splitter: split one block's inner text into top-level
table-literal substrings. -/
def splitTablesL (cs : List Char) : List (List Char) :=
  (cs.foldl splitStep ⟨[], [], 0, false, none, false⟩).tables

/-- Main loop of `extract_tables_from_lua`: find each call site, slice its
argument-list text, split it, and resume the search after the block. -/
def extractLoopF : Nat → List Char → Nat → List (List Char) → List (List Char)
  | 0, _, _, acc => acc
  | f + 1, cs, searchPos, acc =>
    match findPattern cs searchPos with
    | none => acc
    | some matchEnd =>
      let start := matchEnd - 1
      let pos := extractBlockEnd cs start
      let acc2 := acc ++ splitTablesL (extractBlockContent cs start)
      extractLoopF f cs pos acc2

/-- Model of `extract_tables_from_lua`: all table-literal substrings of a file. -/
def extract_tables_from_lua (content : String) : List String :=
  (extractLoopF (content.length + 1) content.toList 0 []).map String.mk

/- Value Parser (`parse_lua_table`).  All scanning loops are index-based over
   the character list, with a fuel argument large enough for loops that
   always advance the index; the nested-table recursion is bounded by an
   outer fuel modelling Python's recursion limit (only reachable on
   pathological self-referential scans). -/

/-- The comment skip `while pos < len and s[pos] != '\n': pos += 1` used by
the shape-detection loop and by both entry loops: it consumes to the end of
the current line (there is no block-comment handling). -/
def skipLineFrom (cs : List Char) (p : Nat) : Nat :=
  skipWhileIdx (fun c => c ≠ nlC) cs p

/-- Prefix match of the key regex `([a-zA-Z_][a-zA-Z0-9_-]*)\s*=` at index
`p`; returns the key and the index just past the `=`. -/
def keyMatchP (cs : List Char) (p : Nat) : Option (String × Nat) :=
  if p < cs.length && identStartB (cs.getD p ' ') then
    let e1 := skipWhileIdx identContB cs (p + 1)
    let e2 := skipWhileIdx pyWsB cs e1
    if cs.get? e2 == some '=' then some (String.mk (sliceL cs p e1), e2 + 1) else none
  else none

/-- The quote-aware balanced-table scan used for `\x7b`-values (array lines
354-386, dict lines 514-546): returns the index just past the closing brace,
or the end of input. -/
def scanTableEndF : Nat → List Char → Nat → Int → Bool → Option Char → Bool → Nat
  | 0, _, pos, _, _, _, _ => pos
  | f + 1, cs, pos, bc, inS, sc, esc =>
    if pos < cs.length then
      let c := cs.getD pos ' '
      if esc then scanTableEndF f cs (pos + 1) bc inS sc false
      else if c = bslashC && inS then scanTableEndF f cs (pos + 1) bc inS sc true
      else if (c = dqC || c = sqC) && !inS then scanTableEndF f cs (pos + 1) bc true (some c) esc
      else if inS && some c == sc then scanTableEndF f cs (pos + 1) bc false none esc
      else if !inS then
        if c = '\x7b' then scanTableEndF f cs (pos + 1) (bc + 1) inS sc esc
        else if c = '\x7d' then
          if bc - 1 = 0 then pos + 1
          else scanTableEndF f cs (pos + 1) (bc - 1) inS sc esc
        else scanTableEndF f cs (pos + 1) bc inS sc esc
      else scanTableEndF f cs (pos + 1) bc inS sc esc
    else pos

/-- The scan `scanTableEndF` with enough fuel, from the opening brace with count 0. -/
def scanTableEnd (cs : List Char) (pos : Nat) : Nat :=
  scanTableEndF (cs.length + 1) cs pos 0 false none false

/-- Scan of a quoted string value (array lines 401-415, dict lines 565-579):
returns the index of the closing quote, or the end of input. -/
def scanQuotedEndF : Nat → List Char → Nat → Char → Bool → Nat
  | 0, _, pos, _, _ => pos
  | f + 1, cs, pos, q, esc =>
    if pos < cs.length then
      let c := cs.getD pos ' '
      if esc then scanQuotedEndF f cs (pos + 1) q false
      else if c = bslashC then scanQuotedEndF f cs (pos + 1) q true
      else if c = q then pos
      else scanQuotedEndF f cs (pos + 1) q false
    else pos

/-- The scan `scanQuotedEndF` with enough fuel. -/
def scanQuotedEnd (cs : List Char) (pos : Nat) (q : Char) : Nat :=
  scanQuotedEndF (cs.length + 1) cs pos q false

/-- The depth-aware scalar-run scan (array lines 430-458, dict lines
594-622): stops at an unmatched closing brace or a depth-zero comma,
without consuming it. -/
def scanScalarEndF : Nat → List Char → Nat → Int → Int → Int → Bool → Option Char → Nat
  | 0, _, pos, _, _, _, _, _ => pos
  | f + 1, cs, pos, bc, brk, par, inS, sc =>
    if pos < cs.length then
      let c := cs.getD pos ' '
      if (c = dqC || c = sqC) && !inS then scanScalarEndF f cs (pos + 1) bc brk par true (some c)
      else if inS && some c == sc then scanScalarEndF f cs (pos + 1) bc brk par false none
      else if !inS then
        if c = '\x7b' then scanScalarEndF f cs (pos + 1) (bc + 1) brk par inS sc
        else if c = '\x7d' then
          if bc > 0 then scanScalarEndF f cs (pos + 1) (bc - 1) brk par inS sc
          else pos
        else if c = '[' then scanScalarEndF f cs (pos + 1) bc (brk + 1) par inS sc
        else if c = ']' then scanScalarEndF f cs (pos + 1) bc (brk - 1) par inS sc
        else if c = '(' then scanScalarEndF f cs (pos + 1) bc brk (par + 1) inS sc
        else if c = ')' then scanScalarEndF f cs (pos + 1) bc brk (par - 1) inS sc
        else if c = ',' && bc = 0 && brk = 0 && par = 0 then pos
        else scanScalarEndF f cs (pos + 1) bc brk par inS sc
      else scanScalarEndF f cs (pos + 1) bc brk par inS sc
    else pos

/-- The scan `scanScalarEndF` with enough fuel. -/
def scanScalarEnd (cs : List Char) (pos : Nat) : Nat :=
  scanScalarEndF (cs.length + 1) cs pos 0 0 0 false none

/-- The shape-detection loop of `parse_lua_table` (lines 313-330): skip
whitespace and `--` comments (to end of line), then classify map exactly
when the first significant token matches the key pattern. -/
def isArrayCheckF : Nat → List Char → Nat → Bool
  | 0, _, _ => true
  | f + 1, cs, p =>
    let p2 := skipWhileIdx luaWsB cs p
    if p2 ≥ cs.length then true
    else if lookAt2 cs p2 '-' '-' then isArrayCheckF f cs (skipLineFrom cs p2)
    else !(keyMatchP cs p2).isSome

/-- The detector `isArrayCheckF` with enough fuel, from index 0. -/
def isArrayCheck (cs : List Char) : Bool := isArrayCheckF (cs.length + 1) cs 0

/-- Strip then remove matching outer braces (lines 305-309): the Python
`startswith`/`endswith` tests and the slice `[1:-1]`, on character lists. -/
def tableCore (s : String) : String :=
  let l := stripL s.toList
  if l.head? == some '\x7b' && l.getLast? == some '\x7d' then String.mk (l.drop 1).dropLast
  else String.mk l

/-- Python dict assignment `result[key] = v` on an insertion-ordered
association list: overwrite in place, or append a new key. -/
def dictInsert : List (String × Value) → String → Value → List (String × Value)
  | [], k, v => [(k, v)]
  | (k2, v2) :: rest, k, v =>
    if k2 = k then (k, v) :: rest else (k2, v2) :: dictInsert rest k v

/-- Array-mode entry loop (lines 334-475).  `pn` parses a nested table
literal (failure falls back to the raw stripped text). -/
def arrLoopF (pn : String → Except String Value) (ev : Option LuaEvaluator) :
    Nat → List Char → Nat → List Value → List Value
  | 0, _, _, acc => acc
  | f + 1, cs, pos0, acc =>
    let pos := skipWhileIdx luaWsB cs pos0
    if pos ≥ cs.length then acc
    else if lookAt2 cs pos '-' '-' then arrLoopF pn ev f cs (skipLineFrom cs pos) acc
    else
      let c := cs.getD pos ' '
      if c = '\x7b' then
        let e := scanTableEnd cs pos
        let vstr := String.mk (sliceL cs pos e)
        let v := match pn vstr with
          | .ok v => v
          | .error _ => .str (pyStrip vstr)
        arrLoopF pn ev f cs (skipWhileIdx commaWsB cs e) (acc ++ [v])
      else if c = dqC || c = sqC then
        let e := scanQuotedEnd cs (pos + 1) c
        let content := String.mk (sliceL cs (pos + 1) e)
        arrLoopF pn ev f cs (skipWhileIdx commaWsB cs (e + 1)) (acc ++ [.str content])
      else
        let e0 := scanScalarEnd cs pos
        let e := if e0 = pos then pos + 1 else e0
        let raw0 := stripL (sliceL cs pos e)
        let raw := if raw0.getLast? == some ',' then stripL raw0.dropLast else raw0
        let acc2 := if raw.isEmpty then acc else acc ++ [parse_lua_value (String.mk raw) ev]
        arrLoopF pn ev f cs (skipWhileIdx commaWsB cs e) acc2

/-- Map-mode entry loop (lines 479-639).  The only failure is the
uncaught IndexError when input ends right after `key =`. -/
def dictLoopF (pn : String → Except String Value) (ev : Option LuaEvaluator) :
    Nat → List Char → Nat → List (String × Value) → Except String Value
  | 0, _, _, acc => .ok (.obj acc)
  | f + 1, cs, pos0, acc =>
    let pos := skipWhileIdx luaWsB cs pos0
    if pos ≥ cs.length then .ok (.obj acc)
    else if lookAt2 cs pos '-' '-' then dictLoopF pn ev f cs (skipLineFrom cs pos) acc
    else
      match keyMatchP cs pos with
      | none => dictLoopF pn ev f cs (pos + 1) acc
      | some kp =>
        let pos2 := skipWhileIdx luaWsB cs kp.2
        if pos2 ≥ cs.length then .error "string index out of range"
        else
          let c := cs.getD pos2 ' '
          if c = '\x7b' then
            let e := scanTableEnd cs pos2
            let vstr := String.mk (sliceL cs pos2 e)
            let v := if (stripL vstr.toList).head? == some '\x7b' then
                match pn vstr with
                | .ok v2 => v2
                | .error _ => .str (pyStrip vstr)
              else .str (pyStrip vstr)
            dictLoopF pn ev f cs (skipWhileIdx commaWsB cs e) (dictInsert acc kp.1 v)
          else if c = dqC || c = sqC then
            let e := scanQuotedEnd cs (pos2 + 1) c
            let content := String.mk (sliceL cs (pos2 + 1) e)
            dictLoopF pn ev f cs (skipWhileIdx commaWsB cs (e + 1))
              (dictInsert acc kp.1 (.str content))
          else
            let e0 := scanScalarEnd cs pos2
            let e := if e0 = pos2 then pos2 + 1 else e0
            let raw0 := stripL (sliceL cs pos2 e)
            let raw := if raw0.getLast? == some ',' then stripL raw0.dropLast else raw0
            dictLoopF pn ev f cs (skipWhileIdx commaWsB cs e)
              (dictInsert acc kp.1 (parse_lua_value (String.mk raw) ev))

/-- Model of `parse_lua_table`, fueled: strip outer braces, classify once, then run
the loop of the chosen mode. -/
def parseTableFuel (ev : Option LuaEvaluator) : Nat → String → Except String Value
  | 0, _ => .error "maximum recursion depth exceeded"
  | f + 1, s =>
    let t := tableCore s
    let cs := t.toList
    if isArrayCheck cs && pyStrip t ≠ "" then
      .ok (.arr (arrLoopF (fun s2 => parseTableFuel ev f s2) ev f cs 0 []))
    else
      dictLoopF (fun s2 => parseTableFuel ev f s2) ev f cs 0 []

/-- Model of `parse_lua_table` with fuel amply covering entry-loop iterations (which
always advance the cursor) and nesting depth. -/
def parse_lua_table (ev : Option LuaEvaluator) (s : String) : Except String Value :=
  parseTableFuel ev ((s.length + 2) * (s.length + 2)) s

/-- Specification device for the duplicate-key claim: the same map-mode loop
as `dictLoopF`, but recording the `(key, value)` assignments in encounter
order instead of performing the dict insertion. -/
def pairsLoopF (pn : String → Except String Value) (ev : Option LuaEvaluator) :
    Nat → List Char → Nat → List (String × Value) → Except String (List (String × Value))
  | 0, _, _, acc => .ok acc
  | f + 1, cs, pos0, acc =>
    let pos := skipWhileIdx luaWsB cs pos0
    if pos ≥ cs.length then .ok acc
    else if lookAt2 cs pos '-' '-' then pairsLoopF pn ev f cs (skipLineFrom cs pos) acc
    else
      match keyMatchP cs pos with
      | none => pairsLoopF pn ev f cs (pos + 1) acc
      | some kp =>
        let pos2 := skipWhileIdx luaWsB cs kp.2
        if pos2 ≥ cs.length then .error "string index out of range"
        else
          let c := cs.getD pos2 ' '
          if c = '\x7b' then
            let e := scanTableEnd cs pos2
            let vstr := String.mk (sliceL cs pos2 e)
            let v := if (stripL vstr.toList).head? == some '\x7b' then
                match pn vstr with
                | .ok v2 => v2
                | .error _ => .str (pyStrip vstr)
              else .str (pyStrip vstr)
            pairsLoopF pn ev f cs (skipWhileIdx commaWsB cs e) (acc ++ [(kp.1, v)])
          else if c = dqC || c = sqC then
            let e := scanQuotedEnd cs (pos2 + 1) c
            let content := String.mk (sliceL cs (pos2 + 1) e)
            pairsLoopF pn ev f cs (skipWhileIdx commaWsB cs (e + 1))
              (acc ++ [(kp.1, .str content)])
          else
            let e0 := scanScalarEnd cs pos2
            let e := if e0 = pos2 then pos2 + 1 else e0
            let raw0 := stripL (sliceL cs pos2 e)
            let raw := if raw0.getLast? == some ',' then stripL raw0.dropLast else raw0
            pairsLoopF pn ev f cs (skipWhileIdx commaWsB cs e)
              (acc ++ [(kp.1, parse_lua_value (String.mk raw) ev)])

/-- The assignment sequence of a map-mode parse, fueled like
`parseTableFuel` (`none` when the input is array-shaped or the loop fails). -/
def pairsOfFuel (ev : Option LuaEvaluator) : Nat → String → Option (List (String × Value))
  | 0, _ => none
  | f + 1, s =>
    let t := tableCore s
    let cs := t.toList
    if isArrayCheck cs && pyStrip t ≠ "" then none
    else
      match pairsLoopF (fun s2 => parseTableFuel ev f s2) ev f cs 0 [] with
      | .ok ps => some ps
      | .error _ => none

/-- The sequence `pairsOfFuel` at the same fuel as `parse_lua_table`. -/
def pairsOf (ev : Option LuaEvaluator) (s : String) : Option (List (String × Value)) :=
  pairsOfFuel ev ((s.length + 2) * (s.length + 2)) s

/- Conversion driver (`convert_lua_to_json`, value-building part). -/

/-- The evaluator created per file when lupa is unavailable: `lua = None`,
empty context. -/
def convEvaluator : LuaEvaluator := ⟨[]⟩

/-- Per-substring step of the driver loop (lines 670-678): parse, or build
the fixed two-field diagnostic dict from the raw text and the message. -/
def convertOne (t : String) : Value :=
  match parse_lua_table (some convEvaluator) t with
  | .ok v => v
  | .error e => .obj [("_raw", .str t), ("_error", .str e)]

/-- The ordered value sequence written by `convert_lua_to_json`. -/
def convert_items (content : String) : List Value :=
  (extract_tables_from_lua content).map convertOne

/- Helper predicates for stating claims without deciding `Value` equality. -/

/-- Coarse classification of a parse result: 0 array, 1 object, 2 other
success, 3 error. -/
def resultKind : Except String Value → Nat
  | .ok (.arr _) => 0
  | .ok (.obj _) => 1
  | .ok _ => 2
  | .error _ => 3

/-- Whether a value is a float. -/
def isFloatV : Value → Bool
  | .floatv _ => true
  | _ => false

/-- Whether a value is an integer. -/
def isIntV : Value → Bool
  | .intv _ => true
  | _ => false

/-- Character class relevant to the quote-blind block scan: opening brace,
closing brace, or anything else. -/
def braceClass (c : Char) : Nat :=
  if c = '\x7b' then 0 else if c = '\x7d' then 1 else 2

/-- The scan `findClosingF` instrumented to also report the final brace count (proof
device; the extractor itself discards the count). -/
def findClosingCnt : Nat → List Char → Nat → Nat → Nat × Nat
  | 0, _, pos, count => (pos, count)
  | f + 1, cs, pos, count =>
    if pos < cs.length && count > 0 then
      let c := cs.getD pos ' '
      let count' := if c = '\x7b' then count + 1 else if c = '\x7d' then count - 1 else count
      findClosingCnt f cs (pos + 1) count'
    else (pos, count)

/- C9: the Table Splitter's scanning discipline.  We show that every
substring it emits starts with an opening brace, ends with the matching
closing brace (its depth stays ≥ 1 at every proper prefix), is
brace-balanced outside strings, and leaves no string (or escape) open —
for every possible input text. -/

/-- The machine-state part of a splitter state. -/
def stQ (st : SplitState) : QState := ⟨st.depth, st.inStr, st.sc, st.esc⟩

/-- A well-formed emitted table substring: starts with `\x7b`, ends with
`\x7d`, the quote/brace machine over it returns to the initial state
(balanced braces outside strings, no open string, no pending escape), and
the depth stays ≥ 1 on every nonempty proper prefix (so the final brace is
the matching one). -/
def GoodTable (t : List Char) : Prop :=
  t.head? = some '\x7b' ∧ t.getLast? = some '\x7d' ∧ scanQ t = qInit ∧
  ∀ i, 1 ≤ i → i < t.length → 1 ≤ (scanQ (t.take i)).depth

/-- Invariant carried through the splitter fold. -/
def SplitInv (st : SplitState) : Prop :=
  (∀ t ∈ st.tables, GoodTable t) ∧
  (st.inStr = false → st.sc = none ∧ st.esc = false) ∧
  (st.esc = true → st.inStr = true) ∧
  (1 ≤ st.depth →
    st.cur.head? = some '\x7b' ∧ scanQ st.cur = stQ st ∧
    ∀ i, 1 ≤ i → i ≤ st.cur.length → 1 ≤ (scanQ (st.cur.take i)).depth)

/- C10: Python dict semantics of map-mode parsing — duplicate identifier
keys keep their first position and their last value. -/

/-- Folding the recorded assignment sequence into a dict. -/
def insertAll (m ps : List (String × Value)) : List (String × Value) :=
  ps.foldl (fun acc kv => dictInsert acc kv.1 kv.2) m

/-- Keys not yet seen, in first-occurrence order. -/
def newKeys : List String → List String → List String
  | [], _ => []
  | k :: ks, seen => if k ∈ seen then newKeys ks seen else k :: newKeys ks (seen ++ [k])

/-- First-occurrence deduplication of a key sequence. -/
def firstDedup (ks : List String) : List String := newKeys ks []

/-- Lookup in an insertion-ordered association list. -/
def assocLookup : List (String × Value) → String → Option Value
  | [], _ => none
  | kv :: rest, k => if kv.1 = k then some kv.2 else assocLookup rest k

/-- Value of the last assignment to a key in an assignment sequence. -/
def lastVal : List (String × Value) → String → Option Value
  | [], _ => none
  | kv :: ps, k =>
    match lastVal ps k with
    | some v => some v
    | none => if kv.1 = k then some kv.2 else none

example : parse_lua_value "true" none = .boolv true := rfl

example : parse_lua_value " -42 " none = .intv (-42) := rfl

example : parse_lua_value "+5" none = .intv 5 := rfl

example : parse_lua_value "1_00" none = .intv 100 := rfl

example : parse_lua_value "1e3" none = .floatv "1e3" := rfl

example : parse_lua_value "-2.5" none = .floatv "-2.5" := rfl

example : parse_lua_value ".5" none = .floatv ".5" := rfl

example : parse_lua_value "1.2.3" none = .str "1.2.3" := rfl

example : parse_lua_value "\"ab\"" none = .str "ab" := rfl

example : parse_lua_value "inf" none = .str "inf" := rfl

example : parse_lua_value "foo.bar" (some ⟨[]⟩) = .nil := rfl

example : parse_lua_value "1.2.3" (some ⟨[]⟩) = .nil := rfl

example : parse_lua_value "data_util.mod_prefix .. \"igniter\"" (some ⟨[]⟩) = .str "se-igniter" := rfl

example : parse_lua_value "foo.bar .. \"x\"" (some ⟨[]⟩) = .str "foo.bar .. \"x\"" := rfl

example :
    extract_tables_from_lua "data:extend(\x7b\x7ba=1\x7d,\x7bb=2\x7d\x7d)" =
      ["\x7ba=1\x7d", "\x7bb=2\x7d"] := rfl

example :
    extract_tables_from_lua
        "x = 1\ndata:extend(\x7b\x7ba=1\x7d\x7d)\ny\ndata:extend (\x7b \x7bc=3\x7d \x7d)" =
      ["\x7ba=1\x7d", "\x7bc=3\x7d"] := rfl

example : extract_tables_from_lua "data:extend(\x7b\x7ba=\"x,\x7by\"\x7d\x7d)" =
    ["\x7ba=\"x,\x7by\"\x7d"] := rfl

/- The quote-blind block scan truncates at a quoted brace: -/
example : extract_tables_from_lua "data:extend(\x7b\"\x7d\"\x7d)" = [] := rfl

/- The EOF-closed block drops its final character: -/
example : extractBlockContent ("data:extend(\x7bab".toList) 12 = ['a'] := rfl

example : parse_lua_table none "\x7b name = \"iron-plate\", stack_size = 100, hidden = false \x7d" =
    .ok (.obj [("name", .str "iron-plate"), ("stack_size", .intv 100),
      ("hidden", .boolv false)]) := rfl

example : parse_lua_table none "\x7b \"a\", \"b\", \"c\" \x7d" =
    .ok (.arr [.str "a", .str "b", .str "c"]) := rfl

example : parse_lua_table none "\x7b type = \"item\", icon_size = \x7b32,32\x7d \x7d" =
    .ok (.obj [("type", .str "item"), ("icon_size", .arr [.intv 32, .intv 32])]) := rfl

example : parse_lua_table none "\x7ba = 1, 2\x7d" = .ok (.obj [("a", .intv 1)]) := rfl

example : parse_lua_table none "\x7b1, a = 2\x7d" =
    .ok (.arr [.intv 1, .str "a = 2"]) := rfl

example : parse_lua_table none "\x7bb =\x7d" = .error "string index out of range" := rfl

example : parse_lua_table none "\x7b\x7d" = .ok (.obj []) := rfl

example : parse_lua_table none "\x7ba = 1, b = 2, a = 3\x7d" =
    .ok (.obj [("a", .intv 3), ("b", .intv 2)]) := rfl

example : pairsOf none "\x7ba = 1, b = 2, a = 3\x7d" =
    some [("a", .intv 1), ("b", .intv 2), ("a", .intv 3)] := rfl

example : parse_lua_table none "\x7b--[[a]]b\nc\x7d" = .ok (.arr [.str "c"]) := rfl

example : parse_lua_table none "\x7b1,[2]=3,4\x7d" =
    .ok (.arr [.intv 1, .str "[2]=3", .intv 4]) := rfl

example : parse_lua_table none "\x7b[\"a\"]=2,5\x7d" =
    .ok (.arr [.str "[\"a\"]=2", .intv 5]) := rfl

example : convert_items "data:extend(\x7b\x7ba = 1\x7d, \x7bb =\x7d, \x7b2\x7d\x7d)" =
    [.obj [("a", .intv 1)],
     .obj [("_raw", .str "\x7bb =\x7d"), ("_error", .str "string index out of range")],
     .arr [.intv 2]] := rfl

/- General facts about the fueled index scans. -/

theorem skipWhileIdxF_succ (pred : Char → Bool) (f : Nat) (cs : List Char) (p : Nat) :
    skipWhileIdxF pred (f + 1) cs p =
      if p < cs.length && pred (cs.getD p ' ') then skipWhileIdxF pred f cs (p + 1) else p := rfl

theorem skipWhileIdxF_spec (pred : Char → Bool) (cs : List Char) :
    ∀ (f p : Nat), p ≤ cs.length → cs.length ≤ p + f →
      p ≤ skipWhileIdxF pred f cs p ∧ skipWhileIdxF pred f cs p ≤ cs.length ∧
      (∀ j, p ≤ j → j < skipWhileIdxF pred f cs p → pred (cs.getD j ' ') = true) ∧
      (skipWhileIdxF pred f cs p = cs.length ∨
        pred (cs.getD (skipWhileIdxF pred f cs p) ' ') = false)
  | 0, p, h1, h2 => by
    have hpl : p = cs.length := le_antisymm h1 (by omega)
    exact ⟨le_rfl, h1, fun j hj1 hj2 => by simp only [skipWhileIdxF] at hj2; omega,
      Or.inl hpl⟩
  | f + 1, p, h1, h2 => by
    by_cases hlt : p < cs.length
    · by_cases hpred : pred (cs.getD p ' ') = true
      · have hcond : (decide (p < cs.length) && pred (cs.getD p ' ')) = true := by
          rw [decide_eq_true hlt, hpred]
          rfl
        have hrec := skipWhileIdxF_spec pred cs f (p + 1) (by omega) (by omega)
        rw [skipWhileIdxF_succ, if_pos hcond]
        refine ⟨by omega, hrec.2.1, ?_, hrec.2.2.2⟩
        intro j hj1 hj2
        rcases eq_or_lt_of_le hj1 with hj | hj
        · exact hj ▸ hpred
        · exact hrec.2.2.1 j (by omega) hj2
      · have hcond : ¬((decide (p < cs.length) && pred (cs.getD p ' ')) = true) := by
          rw [decide_eq_true hlt, Bool.true_and]
          exact hpred
        rw [skipWhileIdxF_succ, if_neg hcond]
        exact ⟨le_rfl, h1, fun j hj1 hj2 => by omega,
          Or.inr (Bool.eq_false_iff.mpr hpred)⟩
    · have hpl : p = cs.length := by omega
      have hcond : ¬((decide (p < cs.length) && pred (cs.getD p ' ')) = true) := by
        rw [decide_eq_false hlt, Bool.false_and]
        exact Bool.false_ne_true
      rw [skipWhileIdxF_succ, if_neg hcond]
      exact ⟨le_rfl, h1, fun j hj1 hj2 => by omega, Or.inl hpl⟩

theorem skipWhileIdx_spec (pred : Char → Bool) (cs : List Char) (p : Nat)
    (hp : p ≤ cs.length) :
    p ≤ skipWhileIdx pred cs p ∧ skipWhileIdx pred cs p ≤ cs.length ∧
    (∀ j, p ≤ j → j < skipWhileIdx pred cs p → pred (cs.getD j ' ') = true) ∧
    (skipWhileIdx pred cs p = cs.length ∨
      pred (cs.getD (skipWhileIdx pred cs p) ' ') = false) :=
  skipWhileIdxF_spec pred cs (cs.length + 1) p hp (by omega)

theorem findClosingCnt_succ (f : Nat) (cs : List Char) (pos count : Nat) :
    findClosingCnt (f + 1) cs pos count =
      if pos < cs.length && count > 0 then
        findClosingCnt f cs (pos + 1)
          (if cs.getD pos ' ' = '\x7b' then count + 1
           else if cs.getD pos ' ' = '\x7d' then count - 1 else count)
      else (pos, count) := rfl

theorem findClosingF_succ (f : Nat) (cs : List Char) (pos count : Nat) :
    findClosingF (f + 1) cs pos count =
      if pos < cs.length && count > 0 then
        findClosingF f cs (pos + 1)
          (if cs.getD pos ' ' = '\x7b' then count + 1
           else if cs.getD pos ' ' = '\x7d' then count - 1 else count)
      else pos := rfl

theorem findClosingCnt_fst : ∀ (f : Nat) (cs : List Char) (pos count : Nat),
    (findClosingCnt f cs pos count).1 = findClosingF f cs pos count
  | 0, _, _, _ => rfl
  | f + 1, cs, pos, count => by
    rw [findClosingCnt_succ, findClosingF_succ]
    by_cases hc : (decide (pos < cs.length) && decide (count > 0)) = true
    · rw [if_pos hc, if_pos hc]
      exact findClosingCnt_fst f cs (pos + 1) _
    · rw [if_neg hc, if_neg hc]

theorem findClosingCnt_eof : ∀ (f : Nat) (cs : List Char) (pos count : Nat),
    pos ≤ cs.length → cs.length ≤ pos + f →
    0 < (findClosingCnt f cs pos count).2 → (findClosingCnt f cs pos count).1 = cs.length
  | 0, cs, pos, count, h1, h2, _ => by
    simp only [findClosingCnt]
    omega
  | f + 1, cs, pos, count, h1, h2, hcnt => by
    rw [findClosingCnt_succ] at hcnt ⊢
    by_cases hc : (decide (pos < cs.length) && decide (count > 0)) = true
    · rw [if_pos hc] at hcnt ⊢
      have hlt : pos < cs.length := by
        have := (Bool.and_eq_true _ _).mp hc
        exact of_decide_eq_true this.1
      exact findClosingCnt_eof f cs (pos + 1) _ (by omega) (by omega) hcnt
    · rw [if_neg hc] at hcnt ⊢
      have hcnt2 : 0 < count := hcnt
      have hnot : ¬(pos < cs.length ∧ count > 0) := by
        intro hx
        exact hc (by rw [decide_eq_true hx.1, decide_eq_true hx.2]; rfl)
      show pos = cs.length
      omega

/-- The brace-count update of the block scan depends only on the brace class
of the character. -/
theorem countUpdate_eq (c1 c2 : Char) (h : braceClass c1 = braceClass c2) (count : Nat) :
    (if c1 = '\x7b' then count + 1 else if c1 = '\x7d' then count - 1 else count) =
    (if c2 = '\x7b' then count + 1 else if c2 = '\x7d' then count - 1 else count) := by
  unfold braceClass at h
  split_ifs at h ⊢ <;> omega

/-- C1.  The claim says an unresolved token containing a dot is returned
unchanged.  The code instead returns Python `None` (JSON null) for an
unresolved bare dotted path, because `result != value_str` in
`parse_lua_value` treats `None` as a successful evaluation: evaluating the
embedded scalar parser at the failing input `"foo.bar"` (fallback evaluator,
empty context, path not in the known-constant table) yields null, not the
original text. -/
theorem C1_code_eval : parse_lua_value "foo.bar" (some ⟨[]⟩) = Value.nil := rfl

/-- C2, counterexample.  The block-end scan keeps no quote state, and on
`data:extend(\x7b\x7ba="\x7d"\x7d\x7d)` this is observable: the `\x7d`
inside the quoted string decrements the depth counter, so the block closes
after the first brace outside the string and its text is the unterminated
`\x7ba="\x7d"` — the extractor yields no table at all.  Under the claim
(braces inside strings never change the depth counter; the boundary is
decided only by braces outside strings) the block would end at the final
braces and its inner text would be the nested table `\x7ba="\x7d"\x7d`,
which the (quote-aware, faithful) splitter emits intact, as the third
conjunct shows — so the claimed output is `[\x7ba="\x7d"\x7d]`, not `[]`. -/
theorem C2_counterexample :
    extract_tables_from_lua "data:extend(\x7b\x7ba=\"\x7d\"\x7d\x7d)" = [] ∧
    ([] : List String) ≠ ["\x7ba=\"\x7d\"\x7d"] ∧
    splitTablesL ("\x7ba=\"\x7d\"\x7d".toList) = ["\x7ba=\"\x7d\"\x7d".toList] := by
  refine ⟨rfl, ?_, rfl⟩
  intro h
  exact absurd (congrArg List.length h) (by decide)

/-- C2, amended.  The forward scan that finds the end of a call site's
argument-list block (lines 241-246) maintains no quote state at all: its
result depends only on where opening and closing braces sit in the text, so
braces inside quoted strings change the depth counter like any others (only
the later splitting pass is quote-aware). -/
theorem C2_amended_thm : ∀ (f : Nat) (cs ds : List Char) (pos count : Nat),
    cs.map braceClass = ds.map braceClass →
    findClosingF f cs pos count = findClosingF f ds pos count
  | 0, _, _, _, _, _ => rfl
  | f + 1, cs, ds, pos, count, h => by
    have hlen : cs.length = ds.length := by
      have := congrArg List.length h
      simpa using this
    have hcc : braceClass (cs.getD pos ' ') = braceClass (ds.getD pos ' ') := by
      have h3 := congrArg (fun l => l.getD pos (braceClass ' ')) h
      simpa only [List.getD_map] using h3
    rw [findClosingF_succ, findClosingF_succ, hlen, countUpdate_eq _ _ hcc count]
    by_cases hc : (decide (pos < ds.length) && decide (count > 0)) = true
    · rw [if_pos hc, if_pos hc]
      exact C2_amended_thm f cs ds (pos + 1) _ h
    · rw [if_neg hc, if_neg hc]

/-- C2, witness: two texts agreeing on brace positions but differing in
quote characters give the same scan result. -/
theorem C2_witness :
    findClosingF 10 ("a\x7bb\x7d".toList) 0 1 = findClosingF 10 ("\"\x7b\"\x7d".toList) 0 1 :=
  C2_amended_thm 10 _ _ 0 1 (by decide)

/-- C7, counterexample.  When the scan hits end-of-input with open braces,
the extracted argument-list text is NOT all characters from just after the
opening brace to the end of the input: the slice `content[start+1 : pos-1]`
unconditionally drops the final character (`b` is lost below). -/
theorem C7_counterexample :
    extractBlockContent ("data:extend(\x7bab".toList) 12 = ['a'] ∧
    (['a'] : List Char) ≠ ['a', 'b'] := by
  refine ⟨rfl, ?_⟩
  intro h
  exact absurd (congrArg List.length h) (by decide)

/-- C7, amended.  The scan is total and, if the brace depth never returns
to zero, it stops exactly at end-of-input; the block is closed there, but
the extracted argument-list text is the characters from just after the
opening brace up to (and excluding) the final character of the input, since
the closing slice always removes one trailing character. -/
theorem C7_amended_thm (cs : List Char) (start : Nat) (hs : start + 1 ≤ cs.length)
    (h : 0 < (findClosingCnt (cs.length + 1) cs (start + 1) 1).2) :
    extractBlockEnd cs start = cs.length ∧
    extractBlockContent cs start = sliceL cs (start + 1) (cs.length - 1) := by
  have h1 : (findClosingCnt (cs.length + 1) cs (start + 1) 1).1 = cs.length :=
    findClosingCnt_eof (cs.length + 1) cs (start + 1) 1 hs (by omega) h
  have h2 : extractBlockEnd cs start = cs.length := by
    rw [extractBlockEnd, ← findClosingCnt_fst, h1]
  exact ⟨h2, by rw [extractBlockContent, h2]⟩

/-- C7, witness: the truncated input above reaches end-of-input with an
open brace and keeps all but the last character after the opening brace. -/
theorem C7_witness :
    extractBlockEnd ("data:extend(\x7bab".toList) 12 = 15 ∧
    extractBlockContent ("data:extend(\x7bab".toList) 12 =
      sliceL ("data:extend(\x7bab".toList) 13 14 :=
  C7_amended_thm ("data:extend(\x7bab".toList) 12 (by decide) (by decide)

/-- C8, counterexample.  In array mode a bracketed-key entry `[2]=3` is not
stored as a string-keyed entry: the whole entry text is consumed by the
scalar-run scanner and kept as one plain string element, not as any
key-to-value mapping. -/
theorem C8_counterexample :
    parse_lua_table none "\x7b1,[2]=3,4\x7d" =
      .ok (.arr [.intv 1, .str "[2]=3", .intv 4]) ∧
    parse_lua_table none "\x7b1,[2]=3,4\x7d" ≠
      .ok (.arr [.intv 1, .obj [("2", .intv 3)], .intv 4]) := by
  refine ⟨rfl, ?_⟩
  intro h
  have hg : parse_lua_table none "\x7b1,[2]=3,4\x7d" =
      .ok (.arr [.intv 1, .str "[2]=3", .intv 4]) := rfl
  have h3 := hg.symm.trans h
  have h4 := congrArg
    (fun r => match r with
      | Except.ok (Value.arr [_, Value.str _, _]) => true
      | _ => false) h3
  simp at h4

/-- C8, amended.  An array-mode entry in the explicit bracketed key form
`[ <value> ] = <value>` is accepted without aborting and without switching
the table's classification away from array, but no string-keyed entry is
produced: the entire entry text is preserved positionally as a single
opaque string element among the other values. -/
theorem C8_amended_thm :
    parse_lua_table none "\x7b[\"a\"]=2,5\x7d" =
      .ok (.arr [.str "[\"a\"]=2", .intv 5]) := rfl

/-- C5, counterexample.  A block comment `--[[a]]` is skipped only to the
end of the current line, not through `]]`: the content `b` on the comment
line is swallowed and only `c` on the next line is parsed, whereas skipping
through the first `]]` would leave `b\nc` as the first scalar run. -/
theorem C5_counterexample :
    parse_lua_table none "\x7b--[[a]]b\nc\x7d" = .ok (.arr [.str "c"]) ∧
    Except.ok (Value.arr [Value.str "c"]) ≠
      (.ok (.arr [.str "b\nc"]) : Except String Value) := by
  refine ⟨rfl, ?_⟩
  intro h
  have h2 := congrArg
    (fun r => match r with
      | Except.ok (Value.arr [Value.str s]) => s
      | _ => "") h
  simp only at h2
  exact absurd h2 (by decide)

/-- C6, counterexample.  Tokens with a leading `+`, with underscore digit
separators, or with an empty integer part are classified as Numbers by
`parse_lua_value` (Python `int()` / `float()` accept them), contradicting
the claim that no such token shape becomes a Number. -/
theorem C6_counterexample :
    parse_lua_value "+5" none = .intv 5 ∧
    parse_lua_value "1_000" none = .intv 1000 ∧
    parse_lua_value ".5" none = .floatv ".5" :=
  ⟨rfl, rfl, rfl⟩

/-- C3.  The driver produces exactly one output value per extracted
table-literal substring, in source order: the i-th output is the parse of
the i-th substring when parsing succeeds, and otherwise the fixed two-field
diagnostic dict built from that raw substring and the error message; in
either case the entry count equals the number of extracted literals. -/
theorem C3_thm (content : String) :
    (convert_items content).length = (extract_tables_from_lua content).length ∧
    ∀ (i : Nat) (t : String), (extract_tables_from_lua content)[i]? = some t →
      ((∀ v, parse_lua_table (some convEvaluator) t = .ok v →
          (convert_items content)[i]? = some v) ∧
       (∀ e, parse_lua_table (some convEvaluator) t = .error e →
          (convert_items content)[i]? =
            some (.obj [("_raw", .str t), ("_error", .str e)]))) := by
  constructor
  · simp [convert_items]
  · intro i t ht
    have hmap : (convert_items content)[i]? = some (convertOne t) := by
      rw [convert_items, List.getElem?_map, ht]
      rfl
    constructor
    · intro v hv
      rw [hmap]
      simp only [convertOne, hv]
    · intro e he
      rw [hmap]
      simp only [convertOne, he]

/-- C3, witness: in a file with three table literals, the malformed middle
one becomes the two-field diagnostic entry at position 1 while the count
stays 3. -/
theorem C3_witness :
    (convert_items "data:extend(\x7b\x7ba = 1\x7d, \x7bb =\x7d, \x7b2\x7d\x7d)")[1]? =
      some (.obj [("_raw", .str "\x7bb =\x7d"),
        ("_error", .str "string index out of range")]) :=
  ((C3_thm "data:extend(\x7b\x7ba = 1\x7d, \x7bb =\x7d, \x7b2\x7d\x7d)").2 1 "\x7bb =\x7d"
    rfl).2 "string index out of range" rfl

theorem dictLoopF_kind (pn : String → Except String Value) (ev : Option LuaEvaluator)
    (f : Nat) : ∀ (cs : List Char) (pos : Nat) (acc : List (String × Value)),
    resultKind (dictLoopF pn ev f cs pos acc) = 1 ∨
    resultKind (dictLoopF pn ev f cs pos acc) = 3 := by
  induction f with
  | zero => intro cs pos acc; exact Or.inl rfl
  | succ f ih =>
    intro cs pos acc
    simp only [dictLoopF]
    repeat' split
    all_goals first
      | exact Or.inl rfl
      | exact Or.inr rfl
      | apply ih

/-- C4.  The array-vs-map classification of `parse_lua_table` is decided
exactly once, by the first-significant-token check on the brace-stripped
text, and fixed for the whole parse: whenever that check classifies array
(and the content is nonempty), the result is an array value regardless of
any later `key = value` entries; whenever it classifies map (or the content
is empty), the result is an object value (or the map loop's error)
regardless of later unlabeled values. -/
theorem C4_thm (ev : Option LuaEvaluator) (s : String) :
    ((isArrayCheck (tableCore s).toList &&
        decide (pyStrip (tableCore s) ≠ "")) = true →
      resultKind (parse_lua_table ev s) = 0) ∧
    ((isArrayCheck (tableCore s).toList &&
        decide (pyStrip (tableCore s) ≠ "")) = false →
      resultKind (parse_lua_table ev s) = 1 ∨
      resultKind (parse_lua_table ev s) = 3) := by
  obtain ⟨f, hf⟩ : ∃ f, (s.length + 2) * (s.length + 2) = f + 1 := by
    refine ⟨(s.length + 2) * (s.length + 2) - 1, ?_⟩
    have h4 : 0 < (s.length + 2) * (s.length + 2) := Nat.mul_pos (by omega) (by omega)
    omega
  constructor
  · intro hcond
    rw [parse_lua_table, hf]
    simp only [parseTableFuel]
    rw [if_pos hcond]
    rfl
  · intro hcond
    rw [parse_lua_table, hf]
    simp only [parseTableFuel]
    rw [if_neg (by rw [hcond]; exact Bool.false_ne_true)]
    exact dictLoopF_kind _ ev f _ 0 []

/-- C4, witness: `\x7ba = 1, 2\x7d` is keyed at its first token, so despite
the later unlabeled `2` the whole table parses as an object. -/
theorem C4_witness :
    resultKind (parse_lua_table none "\x7ba = 1, 2\x7d") = 1 ∨
    resultKind (parse_lua_table none "\x7ba = 1, 2\x7d") = 3 :=
  (C4_thm none "\x7ba = 1, 2\x7d").2 rfl

/-- If the character under the cursor fails the predicate, the skip loop
does not move. -/
theorem skipWhileIdx_stop (pred : Char → Bool) (cs : List Char) (p : Nat)
    (h : pred (cs.getD p ' ') = false) : skipWhileIdx pred cs p = p := by
  rw [skipWhileIdx, skipWhileIdxF_succ]
  rw [if_neg (by rw [h, Bool.and_false]; exact Bool.false_ne_true)]

/-- C5, amended.  On `--` the shape-detection loop consumes exactly to the
end of the current line — the same line-comment skip handles `--[[` block
openers, so a `]]` terminator is never looked for: the skip passes over
every character before the next newline (including any `]]`), and stops at
the first newline or end of input. -/
theorem C5_amended_thm (f : Nat) (cs : List Char) (p : Nat)
    (h : lookAt2 cs p '-' '-' = true) :
    isArrayCheckF (f + 1) cs p = isArrayCheckF f cs (skipLineFrom cs p) ∧
    (∀ j, p ≤ j → j < skipLineFrom cs p → cs.getD j ' ' ≠ nlC) ∧
    (skipLineFrom cs p = cs.length ∨ cs.getD (skipLineFrom cs p) ' ' = nlC) := by
  have hparts := (Bool.and_eq_true _ _).mp h
  have hp0 : cs.get? p = some '-' := eq_of_beq hparts.1
  have hlt : p < cs.length := by
    rcases List.get?_eq_some.mp hp0 with ⟨hl, _⟩
    exact hl
  have hgd : cs.getD p ' ' = '-' := by
    rw [List.getD_eq_getElem _ _ hlt]
    have := hp0
    rw [List.get?_eq_getElem?, List.getElem?_eq_getElem hlt] at this
    exact Option.some.inj this
  have hskip : skipWhileIdx luaWsB cs p = p :=
    skipWhileIdx_stop luaWsB cs p (by rw [hgd]; rfl)
  have hspec := skipWhileIdx_spec (fun c => decide (c ≠ nlC)) cs p (le_of_lt hlt)
  refine ⟨?_, ?_, ?_⟩
  · simp only [isArrayCheckF, hskip]
    rw [if_neg (by omega), if_pos h]
  · intro j hj1 hj2
    have := hspec.2.2.1 j hj1 hj2
    exact of_decide_eq_true this
  · rcases hspec.2.2.2 with hl | hr
    · exact Or.inl hl
    · exact Or.inr (not_not.mp (of_decide_eq_false hr))

/-- C5, witness: starting at the `--[[` opener, the detector skips straight
to the position after the whole comment line. -/
theorem C5_witness :
    isArrayCheckF 4 ("--[[a]]b\nc".toList) 0 =
      isArrayCheckF 3 ("--[[a]]b\nc".toList) (skipLineFrom ("--[[a]]b\nc".toList) 0) :=
  (C5_amended_thm 3 ("--[[a]]b\nc".toList) 0 (by decide)).1

/-- The fall-through tail of the scalar classifier never yields a number. -/
theorem restAfterNumber_not_num (v : String) (ev : Option LuaEvaluator) :
    isFloatV (restAfterNumber v ev) = false ∧ isIntV (restAfterNumber v ev) = false := by
  refine ⟨?_, ?_⟩ <;> simp only [restAfterNumber] <;> (repeat' split) <;> rfl

/-- C6, amended.  The strict classification order holds (booleans and nil
first, then the numeric attempt, then quoted strings, then the evaluator),
but numeric acceptance is Python's `int()` / `float()` literal grammar
gated on the presence of `.`/`e`/`E`: beyond the claim's grammar this also
accepts a leading `+`, single underscores between digits, and floats with
an empty integer or fractional part; the result is floating exactly when
the token contains `.`, `e` or `E` and `float()` accepts it, and integer
exactly when it contains none of those and `int()` accepts it. -/
theorem C6_amended_thm (ev : Option LuaEvaluator) (s : String)
    (h1 : pyStrip s ≠ "true") (h2 : pyStrip s ≠ "false") (h3 : pyStrip s ≠ "nil") :
    (isFloatV (parse_lua_value s ev) = true ↔
      hasDotE (pyStrip s).toList = true ∧ pyFloatOk (pyStrip s) = true) ∧
    (isIntV (parse_lua_value s ev) = true ↔
      hasDotE (pyStrip s).toList = false ∧ (pyIntP (pyStrip s)).isSome = true) := by
  have hrest := restAfterNumber_not_num (pyStrip s) ev
  simp only [parse_lua_value]
  rw [if_neg h1, if_neg h2, if_neg h3]
  by_cases hd : hasDotE (pyStrip s).toList = true
  · have hdA : hasDotE (pyStrip s).data = true := hd
    rw [if_pos hd]
    by_cases hf : pyFloatOk (pyStrip s) = true
    · rw [if_pos hf]
      constructor
      · simp [isFloatV, hdA, hf]
      · simp [isIntV, hdA]
    · rw [if_neg hf]
      constructor
      · rw [hrest.1]
        simp [hf]
      · rw [hrest.2]
        simp [hdA]
  · rw [if_neg hd]
    have hdf : hasDotE (pyStrip s).toList = false := Bool.eq_false_iff.mpr hd
    have hdfA : hasDotE (pyStrip s).data = false := hdf
    cases hip : pyIntP (pyStrip s) with
    | some n =>
      simp only [hip]
      constructor
      · simp [isFloatV, hdfA]
      · simp [isIntV, hdfA, hip]
    | none =>
      simp only [hip]
      constructor
      · rw [hrest.1]
        simp [hdfA]
      · rw [hrest.2]
        simp [hip]

/-- C6, witness: `1e3` contains an exponent marker and is accepted by
`float()`, so it is classified floating. -/
theorem C6_witness : isFloatV (parse_lua_value "1e3" none) = true :=
  ((C6_amended_thm none "1e3" (by decide) (by decide) (by decide)).1).mpr (by decide)

theorem head?_append_some {l l2 : List Char} {a : Char} (h : l.head? = some a) :
    (l ++ l2).head? = some a := by
  cases l with
  | nil => simp at h
  | cons b bs => simpa using h

theorem scanQ_concat (p : List Char) (c : Char) :
    scanQ (p ++ [c]) = qstep (scanQ p) c := by
  simp [scanQ, scanQFrom, List.foldl_append]

/-- The splitter updates its machine-state fields exactly as `qstep`. -/
theorem stQ_splitStep (st : SplitState) (c : Char) :
    stQ (splitStep st c) = qstep ⟨st.depth, st.inStr, st.sc, st.esc⟩ c := by
  simp only [splitStep, qstep]
  split_ifs <;> rfl

/-- Appending one character to a well-formed open accumulator keeps it
well-formed, provided the machine depth stays positive. -/
theorem goodCur_append (cur : List Char) (c : Char) (q : QState)
    (hd1 : cur.head? = some '\x7b') (hscan : scanQ cur = q)
    (htake : ∀ i, 1 ≤ i → i ≤ cur.length → 1 ≤ (scanQ (cur.take i)).depth)
    (hq2 : 1 ≤ (qstep q c).depth) :
    (cur ++ [c]).head? = some '\x7b' ∧ scanQ (cur ++ [c]) = qstep q c ∧
    ∀ i, 1 ≤ i → i ≤ (cur ++ [c]).length → 1 ≤ (scanQ ((cur ++ [c]).take i)).depth := by
  refine ⟨head?_append_some hd1, by rw [scanQ_concat, hscan], ?_⟩
  intro i hi1 hi2
  rcases le_or_lt i cur.length with hle | hgt
  · rw [List.take_append_of_le_length hle]
    exact htake i hi1 hle
  · have hlen : (cur ++ [c]).length = cur.length + 1 := by simp
    have hieq : i = cur.length + 1 := by
      rw [hlen] at hi2
      omega
    rw [hieq, ← hlen, List.take_length, scanQ_concat, hscan]
    exact hq2

/-- Booleans: a true negation means false. -/
theorem bool_not_true {b : Bool} (h : (!b) = true) : b = false := by
  cases b
  · rfl
  · exact absurd h (by decide)

/-- Booleans: a failed negation means true. -/
theorem bool_not_not {b : Bool} (h : ¬((!b) = true)) : b = true := by
  cases b
  · exact absurd rfl h
  · rfl

/-- Transferring a well-formed open accumulator across one appending step. -/
theorem curGood_mk (st st2 : SplitState) (c : Char)
    (hcur2 : st2.cur = st.cur ++ [c]) (hq : qstep (stQ st) c = stQ st2)
    (hg : st.cur.head? = some '\x7b' ∧ scanQ st.cur = stQ st ∧
      ∀ i, 1 ≤ i → i ≤ st.cur.length → 1 ≤ (scanQ (st.cur.take i)).depth)
    (hd2 : 1 ≤ st2.depth) :
    st2.cur.head? = some '\x7b' ∧ scanQ st2.cur = stQ st2 ∧
    ∀ i, 1 ≤ i → i ≤ st2.cur.length → 1 ≤ (scanQ (st2.cur.take i)).depth := by
  obtain ⟨hh, hs, ht⟩ := hg
  have hdep : 1 ≤ (qstep (stQ st) c).depth := by rw [hq]; exact hd2
  have G := goodCur_append st.cur c (stQ st) hh hs ht hdep
  rw [hcur2]
  exact ⟨G.1, G.2.1.trans hq, G.2.2⟩

/-- One splitter step preserves the invariant. -/
theorem splitStep_inv (st : SplitState) (c : Char) (hinv : SplitInv st) :
    SplitInv (splitStep st c) := by
  obtain ⟨htab, hstrq, hescq, hcur⟩ := hinv
  by_cases h1 : st.esc = true
  · -- escape pending: consume the character, stay in string
    have hins : st.inStr = true := hescq h1
    have hst : splitStep st c = { st with cur := st.cur ++ [c], esc := false } := by
      simp only [splitStep]
      rw [if_pos h1]
    have hq : qstep (stQ st) c = stQ { st with cur := st.cur ++ [c], esc := false } := by
      simp only [qstep, stQ]
      rw [if_pos h1]
    rw [hst]
    refine ⟨htab, ?_, ?_, ?_⟩
    · intro h
      have h2 : st.inStr = false := h
      rw [hins] at h2
      exact absurd h2 (by decide)
    · intro h
      have h2 : (false : Bool) = true := h
      exact absurd h2 (by decide)
    · intro hd
      exact curGood_mk st _ c rfl hq (hcur hd) hd
  · by_cases h2 : (decide (c = bslashC) && st.inStr) = true
    · -- backslash inside a string: set the escape flag
      have hins : st.inStr = true := ((Bool.and_eq_true _ _).mp h2).2
      have hst : splitStep st c = { st with esc := true, cur := st.cur ++ [c] } := by
        simp only [splitStep]
        rw [if_neg h1, if_pos h2]
      have hq : qstep (stQ st) c = stQ { st with esc := true, cur := st.cur ++ [c] } := by
        simp only [qstep, stQ]
        rw [if_neg h1, if_pos h2]
      rw [hst]
      refine ⟨htab, ?_, ?_, ?_⟩
      · intro h
        have h3 : st.inStr = false := h
        rw [hins] at h3
        exact absurd h3 (by decide)
      · intro _
        exact hins
      · intro hd
        exact curGood_mk st _ c rfl hq (hcur hd) hd
    · by_cases h3 : ((decide (c = dqC) || decide (c = sqC)) && !st.inStr) = true
      · -- opening quote outside a string
        have hst : splitStep st c =
            { st with inStr := true, sc := some c, cur := st.cur ++ [c] } := by
          simp only [splitStep]
          rw [if_neg h1, if_neg h2, if_pos h3]
        have hq : qstep (stQ st) c =
            stQ { st with inStr := true, sc := some c, cur := st.cur ++ [c] } := by
          simp only [qstep, stQ]
          rw [if_neg h1, if_neg h2, if_pos h3]
        rw [hst]
        refine ⟨htab, ?_, ?_, ?_⟩
        · intro h
          have h4 : (true : Bool) = false := h
          exact absurd h4 (by decide)
        · intro _
          rfl
        · intro hd
          exact curGood_mk st _ c rfl hq (hcur hd) hd
      · by_cases h4 : (st.inStr && (some c == st.sc)) = true
        · -- closing quote
          have hesc : st.esc = false := Bool.eq_false_iff.mpr h1
          have hst : splitStep st c =
              { st with inStr := false, sc := none, cur := st.cur ++ [c] } := by
            simp only [splitStep]
            rw [if_neg h1, if_neg h2, if_neg h3, if_pos h4]
          have hq : qstep (stQ st) c =
              stQ { st with inStr := false, sc := none, cur := st.cur ++ [c] } := by
            simp only [qstep, stQ]
            rw [if_neg h1, if_neg h2, if_neg h3, if_pos h4]
          rw [hst]
          refine ⟨htab, ?_, ?_, ?_⟩
          · intro _
            exact ⟨rfl, hesc⟩
          · intro h
            have h5 : st.esc = true := h
            exact absurd h5 h1
          · intro hd
            exact curGood_mk st _ c rfl hq (hcur hd) hd
        · by_cases h5 : (!st.inStr) = true
          · have hins : st.inStr = false := bool_not_true h5
            have hscn : st.sc = none := (hstrq hins).1
            have hesc : st.esc = false := (hstrq hins).2
            by_cases h6 : c = '\x7b'
            · subst h6
              by_cases h7 : st.depth = 0
              · -- new table starts: reset the accumulator
                have hst : splitStep st '\x7b' =
                    { st with cur := ['\x7b'], depth := st.depth + 1 } := by
                  simp only [splitStep]
                  rw [if_neg h1, if_neg h2, if_neg h3, if_neg h4, if_pos h5,
                    if_pos True.intro, if_pos h7]
                rw [hst]
                refine ⟨htab, ?_, ?_, ?_⟩
                · intro _
                  exact ⟨hscn, hesc⟩
                · intro h
                  have h8 : st.esc = true := h
                  exact absurd h8 h1
                · intro _
                  have hsq : scanQ ['\x7b'] = ⟨1, false, none, false⟩ := by decide
                  refine ⟨rfl, ?_, ?_⟩
                  · show scanQ ['\x7b'] = stQ _
                    rw [hsq]
                    show (⟨1, false, none, false⟩ : QState) =
                      ⟨st.depth + 1, st.inStr, st.sc, st.esc⟩
                    rw [h7, hins, hscn, hesc]
                    decide
                  · intro i hi1 hi2
                    have hieq : i = 1 := by
                      simp only [List.length_cons, List.length_nil] at hi2
                      omega
                    subst hieq
                    show 1 ≤ (scanQ ['\x7b']).depth
                    rw [hsq]
              · -- nested opening brace
                have hst : splitStep st '\x7b' =
                    { st with cur := st.cur ++ ['\x7b'], depth := st.depth + 1 } := by
                  simp only [splitStep]
                  rw [if_neg h1, if_neg h2, if_neg h3, if_neg h4, if_pos h5,
                    if_pos True.intro, if_neg h7]
                have hq : qstep (stQ st) '\x7b' =
                    stQ { st with cur := st.cur ++ ['\x7b'], depth := st.depth + 1 } := by
                  simp only [qstep, stQ]
                  rw [if_neg h1, if_neg h2, if_neg h3, if_neg h4, if_pos h5, if_pos True.intro]
                rw [hst]
                refine ⟨htab, ?_, ?_, ?_⟩
                · intro _
                  exact ⟨hscn, hesc⟩
                · intro h
                  have h8 : st.esc = true := h
                  exact absurd h8 h1
                · intro hd
                  have hd2 : 1 ≤ st.depth + 1 := hd
                  have hdprev : 1 ≤ st.depth := by
                    rcases lt_or_ge st.depth 1 with hlt | hge
                    · exact absurd (by omega : st.depth = 0) h7
                    · exact hge
                  exact curGood_mk st _ '\x7b' rfl hq (hcur hdprev) hd
            · by_cases h8 : c = '\x7d'
              · subst h8
                by_cases h9 : st.depth - 1 = 0
                · -- depth returns to 0: emit the accumulated table
                  have hd1 : st.depth = 1 := by omega
                  have hst : splitStep st '\x7d' = { st with tables := st.tables ++ [st.cur ++ ['\x7d']], cur := [], depth := st.depth - 1 } := by
                    simp only [splitStep]
                    rw [if_neg h1, if_neg h2, if_neg h3, if_neg h4, if_pos h5,
                      if_neg h6, if_pos True.intro, if_pos h9]
                  rw [hst]
                  obtain ⟨hh, hs, ht⟩ := hcur (by omega)
                  have hq1 : stQ st = ⟨1, false, none, false⟩ := by
                    simp only [stQ, QState.mk.injEq]
                    exact ⟨by rw [hd1], hins, hscn, hesc⟩
                  refine ⟨?_, ?_, ?_, ?_⟩
                  · intro t hmem
                    rcases List.mem_append.mp hmem with hold | hnew
                    · exact htab t hold
                    · have hteq : t = st.cur ++ ['\x7d'] := List.mem_singleton.mp hnew
                      subst hteq
                      refine ⟨head?_append_some hh, List.getLast?_concat _, ?_, ?_⟩
                      · rw [scanQ_concat, hs, hq1]
                        rfl
                      · intro i hi1 hi2
                        simp only [List.length_append, List.length_cons,
                          List.length_nil] at hi2
                        have hle : i ≤ st.cur.length := by omega
                        rw [List.take_append_of_le_length hle]
                        exact ht i hi1 hle
                  · intro _
                    exact ⟨hscn, hesc⟩
                  · intro h
                    have h0 : st.esc = true := h
                    exact absurd h0 h1
                  · intro hd
                    have hd2 : (1 : Int) ≤ st.depth - 1 := hd
                    omega
                · -- closing brace with depth not returning to 0
                  have hst : splitStep st '\x7d' =
                      { st with cur := st.cur ++ ['\x7d'], depth := st.depth - 1 } := by
                    simp only [splitStep]
                    rw [if_neg h1, if_neg h2, if_neg h3, if_neg h4, if_pos h5,
                      if_neg h6, if_pos True.intro, if_neg h9]
                  have hq : qstep (stQ st) '\x7d' =
                      stQ { st with cur := st.cur ++ ['\x7d'], depth := st.depth - 1 } := by
                    simp only [qstep, stQ]
                    rw [if_neg h1, if_neg h2, if_neg h3, if_neg h4, if_pos h5,
                      if_neg h6, if_pos True.intro]
                  rw [hst]
                  refine ⟨htab, ?_, ?_, ?_⟩
                  · intro _
                    exact ⟨hscn, hesc⟩
                  · intro h
                    have h0 : st.esc = true := h
                    exact absurd h0 h1
                  · intro hd
                    have hd2 : (1 : Int) ≤ st.depth - 1 := hd
                    exact curGood_mk st _ '\x7d' rfl hq (hcur (by omega)) hd
              · by_cases h10 : st.depth > 0
                · -- plain character inside an open table
                  have hst : splitStep st c = { st with cur := st.cur ++ [c] } := by
                    simp only [splitStep]
                    rw [if_neg h1, if_neg h2, if_neg h3, if_neg h4, if_pos h5,
                      if_neg h6, if_neg h8, if_pos h10]
                  have hq : qstep (stQ st) c = stQ { st with cur := st.cur ++ [c] } := by
                    simp only [qstep, stQ]
                    rw [if_neg h1, if_neg h2, if_neg h3, if_neg h4, if_pos h5,
                      if_neg h6, if_neg h8]
                  rw [hst]
                  refine ⟨htab, ?_, ?_, ?_⟩
                  · intro _
                    exact ⟨hscn, hesc⟩
                  · intro h
                    have h0 : st.esc = true := h
                    exact absurd h0 h1
                  · intro hd
                    exact curGood_mk st _ c rfl hq (hcur hd) hd
                · -- character between tables: dropped
                  have hst : splitStep st c = st := by
                    simp only [splitStep]
                    rw [if_neg h1, if_neg h2, if_neg h3, if_neg h4, if_pos h5,
                      if_neg h6, if_neg h8, if_neg h10]
                  rw [hst]
                  exact ⟨htab, hstrq, hescq, hcur⟩
          · -- inside a string: the character is accumulated verbatim
            have hins : st.inStr = true := bool_not_not h5
            have hst : splitStep st c = { st with cur := st.cur ++ [c] } := by
              simp only [splitStep]
              rw [if_neg h1, if_neg h2, if_neg h3, if_neg h4, if_neg h5]
            have hq : qstep (stQ st) c = stQ { st with cur := st.cur ++ [c] } := by
              simp only [qstep, stQ]
              rw [if_neg h1, if_neg h2, if_neg h3, if_neg h4, if_neg h5]
            rw [hst]
            refine ⟨htab, ?_, ?_, ?_⟩
            · intro h
              have h0 : st.inStr = false := h
              rw [hins] at h0
              exact absurd h0 (by decide)
            · intro _
              exact hins
            · intro hd
              exact curGood_mk st _ c rfl hq (hcur hd) hd

theorem splitInv_foldl : ∀ (l : List Char) (st : SplitState), SplitInv st →
    SplitInv (l.foldl splitStep st)
  | [], st, h => h
  | c :: l, st, h => splitInv_foldl l (splitStep st c) (splitStep_inv st c h)

/-- C9.  Every table-literal substring emitted by the Table Splitter — for
every possible argument-list text, malformed or not — begins with `\x7b`,
ends with the matching `\x7d` (depth stays ≥ 1 on every nonempty proper
prefix), is brace-balanced outside quoted strings, and contains no
unterminated quoted string and no pending escape (machine returns to the
initial state). -/
theorem C9_thm (s t : List Char) (h : t ∈ splitTablesL s) :
    t.head? = some '\x7b' ∧ t.getLast? = some '\x7d' ∧ scanQ t = qInit ∧
    ∀ i, 1 ≤ i → i < t.length → 1 ≤ (scanQ (t.take i)).depth := by
  have h0 : SplitInv ⟨[], [], 0, false, none, false⟩ := by
    refine ⟨?_, ?_, ?_, ?_⟩
    · intro t2 ht2
      simp at ht2
    · intro _
      exact ⟨rfl, rfl⟩
    · intro h2
      exact absurd h2 (by decide)
    · intro h2
      have h3 : (1 : Int) ≤ 0 := h2
      omega
  have hinv := splitInv_foldl s ⟨[], [], 0, false, none, false⟩ h0
  exact hinv.1 t h

/-- C9, witness: splitting a malformed inner text (stray brace and
truncated tail) still yields only well-formed table substrings. -/
theorem C9_witness :
    ("\x7b1,\"a\"\x7d".toList).head? = some '\x7b' ∧
    ("\x7b1,\"a\"\x7d".toList).getLast? = some '\x7d' ∧
    scanQ ("\x7b1,\"a\"\x7d".toList) = qInit :=
  have H := C9_thm ("ab, \x7b1,\"a\"\x7d junk \x7b trunc".toList)
    ("\x7b1,\"a\"\x7d".toList) (by decide)
  ⟨H.1, H.2.1, H.2.2.1⟩

theorem dictInsert_keys_mem (m : List (String × Value)) (k : String) (v : Value)
    (h : k ∈ m.map Prod.fst) :
    (dictInsert m k v).map Prod.fst = m.map Prod.fst := by
  induction m with
  | nil => simp at h
  | cons kv rest ih =>
    obtain ⟨k2, v2⟩ := kv
    simp only [dictInsert]
    by_cases hk : k2 = k
    · rw [if_pos hk]
      simp [hk]
    · rw [if_neg hk]
      have h2 : k ∈ rest.map Prod.fst := by
        simp only [List.map_cons, List.mem_cons] at h
        rcases h with h | h
        · exact absurd h.symm hk
        · exact h
      simp only [List.map_cons, ih h2]

theorem dictInsert_keys_new (m : List (String × Value)) (k : String) (v : Value)
    (h : k ∉ m.map Prod.fst) :
    (dictInsert m k v).map Prod.fst = m.map Prod.fst ++ [k] := by
  induction m with
  | nil => simp [dictInsert]
  | cons kv rest ih =>
    obtain ⟨k2, v2⟩ := kv
    simp only [dictInsert]
    have hk : ¬(k2 = k) := by
      intro he
      exact h (by simp [he])
    rw [if_neg hk]
    have h2 : k ∉ rest.map Prod.fst := by
      intro hin
      exact h (by simp [hin])
    simp only [List.map_cons, ih h2, List.cons_append]

theorem dictInsert_lookup (m : List (String × Value)) (k : String) (v : Value)
    (kq : String) :
    assocLookup (dictInsert m k v) kq = if kq = k then some v else assocLookup m kq := by
  induction m with
  | nil =>
    by_cases h : kq = k
    · subst h
      simp [dictInsert, assocLookup]
    · simp [dictInsert, assocLookup, h, Ne.symm h]
  | cons kv rest ih =>
    obtain ⟨k2, v2⟩ := kv
    simp only [dictInsert]
    by_cases h2 : k2 = k
    · rw [if_pos h2]
      by_cases hq : kq = k
      · subst hq
        subst h2
        simp [assocLookup]
      · have hq2 : ¬(k = kq) := fun he => hq he.symm
        have hq3 : ¬(k2 = kq) := by rw [h2]; exact hq2
        simp [assocLookup, hq, hq2, hq3]
    · rw [if_neg h2]
      by_cases h3 : k2 = kq
      · have hqk : ¬(kq = k) := by
          intro he
          exact h2 (h3.trans he)
        simp [assocLookup, h3, hqk]
      · simp only [assocLookup, if_neg h3, ih]

theorem insertAll_cons (m : List (String × Value)) (kv : String × Value)
    (ps : List (String × Value)) :
    insertAll m (kv :: ps) = insertAll (dictInsert m kv.1 kv.2) ps := rfl

theorem insertAll_keys (ps : List (String × Value)) : ∀ (m : List (String × Value)),
    (insertAll m ps).map Prod.fst =
      m.map Prod.fst ++ newKeys (ps.map Prod.fst) (m.map Prod.fst) := by
  induction ps with
  | nil =>
    intro m
    simp [insertAll, newKeys]
  | cons kv ps ih =>
    intro m
    rw [insertAll_cons]
    simp only [List.map_cons, newKeys]
    by_cases hk : kv.1 ∈ m.map Prod.fst
    · rw [if_pos hk, ih, dictInsert_keys_mem _ _ _ hk]
    · rw [if_neg hk, ih, dictInsert_keys_new _ _ _ hk]
      simp [List.append_assoc]

theorem newKeys_nodup (ks : List String) : ∀ (seen : List String), seen.Nodup →
    (seen ++ newKeys ks seen).Nodup := by
  induction ks with
  | nil =>
    intro seen h
    simpa [newKeys] using h
  | cons k ks ih =>
    intro seen h
    simp only [newKeys]
    by_cases hk : k ∈ seen
    · rw [if_pos hk]
      exact ih seen h
    · rw [if_neg hk]
      have h2 : (seen ++ [k]).Nodup := by
        rw [List.nodup_append]
        refine ⟨h, List.nodup_singleton k, ?_⟩
        intro a ha hb
        have hak : a = k := by simpa using hb
        subst hak
        exact hk ha
      have h3 := ih (seen ++ [k]) h2
      rwa [List.append_assoc, List.singleton_append] at h3

theorem insertAll_lookup (ps : List (String × Value)) : ∀ (m : List (String × Value))
    (kq : String),
    assocLookup (insertAll m ps) kq =
      (match lastVal ps kq with
       | some v => some v
       | none => assocLookup m kq) := by
  induction ps with
  | nil =>
    intro m kq
    simp [insertAll, lastVal]
  | cons kv ps ih =>
    intro m kq
    rw [insertAll_cons, ih]
    simp only [lastVal]
    cases hl : lastVal ps kq with
    | some v => rfl
    | none =>
      rw [dictInsert_lookup]
      by_cases hq : kq = kv.1
      · rw [if_pos hq, if_pos hq.symm]
      · rw [if_neg hq, if_neg (fun he => hq he.symm)]

theorem assocLookup_of_mem (m : List (String × Value)) (hm : (m.map Prod.fst).Nodup) :
    ∀ kv ∈ m, assocLookup m kv.1 = some kv.2 := by
  induction m with
  | nil =>
    intro kv h
    simp at h
  | cons kv0 rest ih =>
    intro kv hmem
    rcases List.mem_cons.mp hmem with he | hr
    · subst he
      simp [assocLookup]
    · simp only [assocLookup]
      simp only [List.map_cons, List.nodup_cons] at hm
      by_cases h0 : kv0.1 = kv.1
      · exfalso
        have hin : kv.1 ∈ rest.map Prod.fst := List.mem_map_of_mem Prod.fst hr
        exact hm.1 (by rw [h0]; exact hin)
      · rw [if_neg h0]
        exact ih hm.2 kv hr

theorem exmap_map {α β γ : Type} (e : Except String α) (f : α → β) (g : β → γ) :
    (e.map f).map g = e.map (fun x => g (f x)) := by
  cases e <;> rfl

theorem exmap_congr {α β : Type} (e : Except String α) (f g : α → β)
    (h : ∀ x, f x = g x) : e.map f = e.map g := by
  cases e <;> simp [Except.map, h]

theorem pairsLoopF_acc (pn : String → Except String Value) (ev : Option LuaEvaluator) :
    ∀ (f : Nat) (cs : List Char) (pos : Nat) (ps : List (String × Value)),
    pairsLoopF pn ev f cs pos ps =
      (pairsLoopF pn ev f cs pos []).map (fun qs => ps ++ qs)
  | 0, cs, pos, ps => by
    simp [pairsLoopF, Except.map]
  | f + 1, cs, pos, ps => by
    simp only [pairsLoopF]
    split
    · simp [Except.map]
    · split
      · exact pairsLoopF_acc pn ev f cs _ ps
      · split
        · exact pairsLoopF_acc pn ev f cs _ ps
        · split
          · simp [Except.map]
          · split
            · rw [pairsLoopF_acc pn ev f cs _ (ps ++ [_]),
                pairsLoopF_acc pn ev f cs _ ([] ++ [_]), exmap_map]
              exact exmap_congr _ _ _ (fun x => by simp [List.append_assoc])
            · split
              · rw [pairsLoopF_acc pn ev f cs _ (ps ++ [_]),
                  pairsLoopF_acc pn ev f cs _ ([] ++ [_]), exmap_map]
                exact exmap_congr _ _ _ (fun x => by simp [List.append_assoc])
              · rw [pairsLoopF_acc pn ev f cs _ (ps ++ [_]),
                  pairsLoopF_acc pn ev f cs _ ([] ++ [_]), exmap_map]
                exact exmap_congr _ _ _ (fun x => by simp [List.append_assoc])

set_option maxHeartbeats 2000000 in
theorem dict_pairs_sim (pn : String → Except String Value) (ev : Option LuaEvaluator) :
    ∀ (f : Nat) (cs : List Char) (pos : Nat) (m : List (String × Value)),
    dictLoopF pn ev f cs pos m =
      (pairsLoopF pn ev f cs pos []).map (fun qs => Value.obj (insertAll m qs))
  | 0, cs, pos, m => by
    simp [dictLoopF, pairsLoopF, Except.map, insertAll]
  | f + 1, cs, pos, m => by
    simp only [dictLoopF, pairsLoopF]
    split
    · simp [Except.map, insertAll]
    · split
      · exact dict_pairs_sim pn ev f cs _ m
      · split
        · exact dict_pairs_sim pn ev f cs _ m
        · split
          · simp [Except.map]
          · split
            · refine (dict_pairs_sim pn ev f cs _ _).trans ?_
              rw [pairsLoopF_acc pn ev f cs _ ([] ++ [_]), exmap_map]
              exact exmap_congr _ _ _ (fun x => rfl)
            · split
              · refine (dict_pairs_sim pn ev f cs _ _).trans ?_
                rw [pairsLoopF_acc pn ev f cs _ ([] ++ [_]), exmap_map]
                exact exmap_congr _ _ _ (fun x => rfl)
              · refine (dict_pairs_sim pn ev f cs _ _).trans ?_
                rw [pairsLoopF_acc pn ev f cs _ ([] ++ [_]), exmap_map]
                exact exmap_congr _ _ _ (fun x => rfl)

/-- C10.  When a map-shaped table parses successfully, the resulting object
holds each identifier key exactly once (keys are duplicate-free), the key
order is the first-occurrence order of the recorded assignment sequence,
and each key's stored value is the value parsed at that key's last
assignment (later assignments silently overwrite earlier ones in place). -/
theorem C10_thm (ev : Option LuaEvaluator) (s : String)
    (m ps : List (String × Value))
    (h : parse_lua_table ev s = .ok (.obj m)) (h2 : pairsOf ev s = some ps) :
    m.map Prod.fst = firstDedup (ps.map Prod.fst) ∧
    (m.map Prod.fst).Nodup ∧
    m.map (fun kv => (kv.1, lastVal ps kv.1)) =
      m.map (fun kv => (kv.1, some kv.2)) := by
  obtain ⟨f, hf⟩ : ∃ f, (s.length + 2) * (s.length + 2) = f + 1 := by
    refine ⟨(s.length + 2) * (s.length + 2) - 1, ?_⟩
    have h4 : 0 < (s.length + 2) * (s.length + 2) := Nat.mul_pos (by omega) (by omega)
    omega
  rw [parse_lua_table, hf] at h
  rw [pairsOf, hf] at h2
  simp only [parseTableFuel] at h
  simp only [pairsOfFuel] at h2
  by_cases hcond : (isArrayCheck (tableCore s).toList &&
      decide (pyStrip (tableCore s) ≠ "")) = true
  · rw [if_pos hcond] at h2
    simp at h2
  · rw [if_neg (by rw [Bool.eq_false_iff.mpr hcond]; exact Bool.false_ne_true)] at h
    rw [if_neg (by rw [Bool.eq_false_iff.mpr hcond]; exact Bool.false_ne_true)] at h2
    rw [dict_pairs_sim] at h
    cases hp : pairsLoopF (fun s2 => parseTableFuel ev f s2) ev f (tableCore s).toList 0 []
      with
    | error e =>
      rw [hp] at h2
      simp at h2
    | ok qs =>
      rw [hp] at h h2
      simp only [Except.map] at h
      have hqs : qs = ps := by
        simpa using h2
      subst hqs
      have hm : insertAll [] qs = m := by
        have := h
        simp only [Except.ok.injEq, Value.obj.injEq] at this
        exact this
      have hkeys : m.map Prod.fst = firstDedup (qs.map Prod.fst) := by
        rw [← hm, insertAll_keys]
        simp [firstDedup]
      have hnodup : (m.map Prod.fst).Nodup := by
        rw [hkeys]
        have := newKeys_nodup (qs.map Prod.fst) [] List.nodup_nil
        simpa [firstDedup] using this
      refine ⟨hkeys, hnodup, ?_⟩
      apply List.map_congr_left
      intro kv hkv
      have hlook : assocLookup m kv.1 = some kv.2 := assocLookup_of_mem m hnodup kv hkv
      have hins := insertAll_lookup qs [] kv.1
      rw [hm] at hins
      have hlv : lastVal qs kv.1 = some kv.2 := by
        rw [hlook] at hins
        cases hl : lastVal qs kv.1 with
        | some v =>
          rw [hl] at hins
          simp only [assocLookup] at hins
          rw [← hins]
        | none =>
          rw [hl] at hins
          simp [assocLookup] at hins
      rw [hlv]

/-- C10, witness: in `\x7ba = 1, b = 2, a = 3\x7d` the duplicate key `a`
keeps its first position but the last value 3. -/
theorem C10_witness :
    ([("a", Value.intv 3), ("b", Value.intv 2)].map Prod.fst =
      firstDedup ([("a", Value.intv 1), ("b", Value.intv 2),
        ("a", Value.intv 3)].map Prod.fst)) ∧
    (([("a", Value.intv 3), ("b", Value.intv 2)].map Prod.fst).Nodup) ∧
    ([("a", Value.intv 3), ("b", Value.intv 2)].map
      (fun kv => (kv.1, lastVal [("a", Value.intv 1), ("b", Value.intv 2),
        ("a", Value.intv 3)] kv.1)) =
     [("a", Value.intv 3), ("b", Value.intv 2)].map (fun kv => (kv.1, some kv.2))) :=
  C10_thm none "\x7ba = 1, b = 2, a = 3\x7d"
    [("a", Value.intv 3), ("b", Value.intv 2)]
    [("a", Value.intv 1), ("b", Value.intv 2), ("a", Value.intv 3)] rfl rfl

end LuaJson

